import Mathlib

/-!
Shallow embedding of `grid.py`, a minimal reinforcement-learning testbed:
a grid world parsed from text, an episodic simulation of an agent moving on
the grid, tabular Q-learning, and pluggable action-selection policies.

Conventions of the embedding:
* Python strings become `List Char`; Python `str.split()` (split on runs of
  whitespace, dropping empty pieces) is modelled by `pySplit`.
* Python ints become `Int`/`Nat`; Python floats (Q-values, learning rates)
  become `ℚ` (all constants in the program are exactly representable).
* The mutable `Simulation`, `QTable` and `QLearner` objects become explicit
  state passing: a method that mutates returns the updated value.
* Python exceptions become `Except WorldFailure`.
* `World.at` (`self._lines[y][x]`) raises on out-of-range indices in Python;
  the model `World.charAt` totalizes it with a junk default `'#'`.  Every
  use in the program is guarded by a bounds check, so the junk value is
  never semantically relied upon.
-/

namespace Gridworld

/-- The four player actions, in the fixed enumeration order of the source
(`MOVEMENT` dict insertion order: up, down, left, right). -/
inductive Action where
  | up
  | down
  | left
  | right
deriving DecidableEq

/-- The movement dict: unit vector (dx, dy) for each action. -/
def MOVEMENT : Action → Int × Int
  | Action.up => (0, -1)
  | Action.down => (0, 1)
  | Action.left => (-1, 0)
  | Action.right => (1, 0)

/-- All actions in enumeration order, as `ALL_ACTIONS = list(MOVEMENT.keys())`. -/
def ALL_ACTIONS : List Action :=
  [Action.up, Action.down, Action.left, Action.right]

/-- The valid map characters: wall, floor, start, goal, trap, blank. -/
def VALID_CHARS : List Char := ['#', '.', '@', '$', '^', ' ']

/-- Spec-level terrain classification of a grid cell. -/
inductive Terrain where
  | floor
  | wall
  | trap
  | goal
  | blank
deriving DecidableEq

/-- Spec-level map from the character grid to terrain: `.` is Floor, `^` is
Trap, `$` is Goal, blank is the Blank impassable cell, and `#` is Wall.
Characters outside the map alphabet never occur in a parsed world; they are
impassable to the simulation exactly like a wall, so they classify as Wall. -/
def classify (c : Char) : Terrain :=
  if c = '.' then Terrain.floor
  else if c = '^' then Terrain.trap
  else if c = '$' then Terrain.goal
  else if c = ' ' then Terrain.blank
  else Terrain.wall

/-- The structured parse failures raised by `World.parse` (class
`WorldFailure`), one constructor per distinct error message. -/
inductive WorldFailure where
  | noContent
  | lineLength (y : Nat) (len len0 : Nat)
  | invalidChar (c : Char) (x y : Nat)
  | multipleInit (first : Nat × Nat) (x y : Nat)
  | noInit
deriving DecidableEq

/-- Decidable equality for `Except`, used to evaluate `World.parse` results
on concrete inputs. -/
def exceptDecEq {ε α : Type} [DecidableEq ε] [DecidableEq α] : DecidableEq (Except ε α)
  | Except.error x, Except.error y =>
    if h : x = y then isTrue (by rw [h]) else isFalse (by intro hc; cases hc; exact h rfl)
  | Except.error _, Except.ok _ => isFalse (by intro hc; cases hc)
  | Except.ok _, Except.error _ => isFalse (by intro hc; cases hc)
  | Except.ok x, Except.ok y =>
    if h : x = y then isTrue (by rw [h]) else isFalse (by intro hc; cases hc; exact h rfl)

instance {ε α : Type} [DecidableEq ε] [DecidableEq α] : DecidableEq (Except ε α) :=
  exceptDecEq

/-- Python whitespace characters, as recognized by `str.split()`. -/
def pyIsSpace (c : Char) : Bool :=
  c = ' ' || c = '\t' || c = '\n' || c = '\r' || c = '\x0b' || c = '\x0c'

/-- Helper for `pySplit`: `acc` is the current (reversed) run of
non-whitespace characters. -/
def pySplitAux : List Char → List Char → List (List Char)
  | [], acc => if acc.isEmpty then [] else [acc.reverse]
  | c :: rest, acc =>
    if pyIsSpace c then
      if acc.isEmpty then pySplitAux rest []
      else acc.reverse :: pySplitAux rest []
    else pySplitAux rest (c :: acc)

/-- Python `s.split()`: split on runs of whitespace, dropping empty pieces. -/
def pySplit (s : List Char) : List (List Char) :=
  pySplitAux s []

/-- A grid world: player start position and the list of map lines. -/
structure World where
  init_state : Int × Int
  lines : List (List Char)
deriving DecidableEq

/-- The height of the grid world: `len(self._lines)`. -/
def World.h (w : World) : Nat :=
  w.lines.length

/-- The width of the grid world: `len(self._lines[0])`. -/
def World.w (w : World) : Nat :=
  (w.lines.headD []).length

/-- The character at an (x, y) coordinate, `self._lines[y][x]`, totalized
with junk default `'#'` (Python raises out of range; all uses in the
program are bounds-guarded). -/
def World.charAt (w : World) (p : Int × Int) : Char :=
  (w.lines.getD p.2.toNat []).getD p.1.toNat '#'

/-- The terrain classification at a coordinate. -/
def World.terrainAt (w : World) (p : Int × Int) : Terrain :=
  classify (w.charAt p)

/-- Whether a coordinate is within the grid bounds. -/
def World.inBoundsP (w : World) (p : Int × Int) : Prop :=
  0 ≤ p.1 ∧ p.1 < (w.w : Int) ∧ 0 ≤ p.2 ∧ p.2 < (w.h : Int)

instance (w : World) (p : Int × Int) : Decidable (w.inBoundsP p) := by
  unfold World.inBoundsP; infer_instance

/-- Character scan of one line of `World.parse`: walks the characters of
`line` at positions `x0, x0+1, ...` of row `y`, rejecting invalid
characters and recording the start position `@` (at most one overall). -/
def scanChars : List Char → Nat → Nat → Option (Nat × Nat) →
    Except WorldFailure (Option (Nat × Nat))
  | [], _, _, init => Except.ok init
  | c :: rest, x, y, init =>
    if c ∉ VALID_CHARS then Except.error (WorldFailure.invalidChar c x y)
    else if c = '@' then
      match init with
      | some first => Except.error (WorldFailure.multipleInit first x y)
      | none => scanChars rest (x + 1) y (some (x, y))
    else scanChars rest (x + 1) y init

/-- Line scan of `World.parse`: for each line at row `y`, first checks the
length against the first line (`y > 0` only), then scans its characters. -/
def scanLines : List (List Char) → Nat → Nat → Option (Nat × Nat) →
    Except WorldFailure (Option (Nat × Nat))
  | [], _, _, init => Except.ok init
  | line :: rest, y, len0, init =>
    if y > 0 ∧ line.length ≠ len0 then
      Except.error (WorldFailure.lineLength y line.length len0)
    else
      match scanChars line 0 y init with
      | Except.error e => Except.error e
      | Except.ok init2 => scanLines rest (y + 1) len0 init2

/-- Replace the character at index `x` of a line by `'.'`:
`line[0:x] + '.' + line[x+1:]`. -/
def setChar (l : List Char) (x : Nat) : List Char :=
  l.take x ++ ['.'] ++ l.drop (x + 1)

/-- `World.parse(s)`: split `s` into lines (Python `s.split()`, which
splits on every whitespace run), reject empty input, ragged lines, invalid
characters, and zero or multiple `@`; finally reclassify the start cell as
ordinary ground `'.'`. -/
def World.parse (s : List Char) : Except WorldFailure World :=
  let lines := pySplit s
  if lines.isEmpty then Except.error WorldFailure.noContent
  else
    match scanLines lines 0 (lines.headD []).length none with
    | Except.error e => Except.error e
    | Except.ok none => Except.error WorldFailure.noInit
    | Except.ok (some (x, y)) =>
      Except.ok ⟨(Int.ofNat x, Int.ofNat y), lines.set y (setChar (lines.getD y []) x)⟩

/-- The simulation: the world, the player position `state`, and the
cumulative `score`. -/
structure Simulation where
  world : World
  state : Int × Int
  score : Int
deriving DecidableEq

/-- `Simulation.reset`: position back to the world's start, score to 0. -/
def Simulation.reset (sim : Simulation) : Simulation :=
  { sim with state := sim.world.init_state, score := 0 }

/-- `Simulation(world)`: the constructor calls `reset()`. -/
def Simulation.mkSim (w : World) : Simulation :=
  Simulation.reset ⟨w, w.init_state, 0⟩

/-- Whether the simulation is in a terminal state:
`self._world.at(self.state) in ['^', '$']`. -/
def Simulation.in_terminal_state (sim : Simulation) : Bool :=
  decide (sim.world.charAt sim.state ∈ ['^', '$'])

/-- `Simulation._valid_move(new_state)`: in bounds and passable terrain. -/
def Simulation.valid_move (sim : Simulation) (p : Int × Int) : Bool :=
  decide (0 ≤ p.1) && decide (p.1 < (sim.world.w : Int)) &&
  decide (0 ≤ p.2) && decide (p.2 < (sim.world.h : Int)) &&
  decide (sim.world.charAt p ∈ ['.', '^', '$'])

/-- The candidate cell of an action: current position plus the unit vector. -/
def Simulation.candidate (sim : Simulation) (a : Action) : Int × Int :=
  (sim.state.1 + (MOVEMENT a).1, sim.state.2 + (MOVEMENT a).2)

/-- `Simulation.act(action)`: returns the reward and the updated
simulation.  Reward defaults to -1, overridden to -1000 when the valid
candidate cell is a trap; the position moves only on a valid move; the
score accumulates the reward regardless. -/
def Simulation.act (sim : Simulation) (a : Action) : Int × Simulation :=
  let reward : Int := -1
  let new_state := sim.candidate a
  if sim.valid_move new_state then
    let reward2 : Int := if sim.world.charAt new_state = '^' then -1000 else reward
    (reward2, { sim with state := new_state, score := sim.score + reward2 })
  else
    (reward, { sim with score := sim.score + reward })

/-- The simulation states reachable from the constructor by `act` and
`reset` (the operations of the simulator). -/
inductive Reachable (w : World) : Simulation → Prop where
  | init : Reachable w (Simulation.mkSim w)
  | step (sim : Simulation) (a : Action) : Reachable w sim → Reachable w (sim.act a).2
  | restart (sim : Simulation) : Reachable w sim → Reachable w sim.reset

/-- Position of an action in the fixed enumeration order `ALL_ACTIONS`. -/
def actionIndex : Action → Nat
  | Action.up => 0
  | Action.down => 1
  | Action.left => 2
  | Action.right => 3

/-- First-occurrence lookup in the entry list of a Python dict keyed by
(state, action) pairs. -/
def lookupKey {σ : Type} [DecidableEq σ] :
    List ((σ × Action) × ℚ) → σ × Action → Option ℚ
  | [], _ => none
  | e :: rest, k => if e.1 = k then some e.2 else lookupKey rest k

/-- Write-through update of the entry list of a Python dict: replace the
entry in place if the key is present, else append a new entry. -/
def setKey {σ : Type} [DecidableEq σ] :
    List ((σ × Action) × ℚ) → σ × Action → ℚ → List ((σ × Action) × ℚ)
  | [], k, v => [(k, v)]
  | e :: rest, k, v => if e.1 = k then (k, v) :: rest else e :: setKey rest k v

/-- `QTable`: a look-up table approximation of the Q function, backed by
`collections.defaultdict(lambda: init_reward)`, modelled as an entry list
plus the default. -/
structure QTable (σ : Type) where
  table : List ((σ × Action) × ℚ)
  init_reward : ℚ
deriving DecidableEq

/-- `QTable.get(state, action)`: `self._table[(state, action)]`.  A Python
`defaultdict` read materializes a missing key with the default value, so
the model returns the possibly-grown table alongside the value. -/
def QTable.get {σ : Type} [DecidableEq σ] (q : QTable σ) (s : σ) (a : Action) :
    ℚ × QTable σ :=
  match lookupKey q.table (s, a) with
  | some v => (v, q)
  | none => (q.init_reward, ⟨q.table ++ [((s, a), q.init_reward)], q.init_reward⟩)

/-- `QTable.set(state, action, value)`: unconditional overwrite. -/
def QTable.set {σ : Type} [DecidableEq σ] (q : QTable σ) (s : σ) (a : Action)
    (v : ℚ) : QTable σ :=
  ⟨setKey q.table (s, a) v, q.init_reward⟩

/-- The pure value of an entry: stored value, or the default if absent.
This is the observable content of the table, unaffected by defaultdict
materialization. -/
def QTable.read {σ : Type} [DecidableEq σ] (q : QTable σ) (k : σ × Action) : ℚ :=
  (lookupKey q.table k).getD q.init_reward

/-- The seed of the running maximum in `QTable.best`: the Python literal
`-1e20` (exactly representable, so exactly `-(10^20)`). -/
def BEST_INIT : ℚ := -(10 ^ 20)

/-- The scan loop of `QTable.best`, threading the table through the
materializing `get` calls; `acc` is the running (best action, best value)
pair and a new action wins only on strictly greater value. -/
def QTable.bestAux {σ : Type} [DecidableEq σ] (s : σ) :
    QTable σ → List Action → Option Action × ℚ → (Option Action × ℚ) × QTable σ
  | q, [], acc => (acc, q)
  | q, a :: rest, acc =>
    let r := q.get s a
    QTable.bestAux s r.2 rest (if acc.2 < r.1 then (some a, r.1) else acc)

/-- `QTable.best(state)`: the best predicted action and its value, scanning
`ALL_ACTIONS` with the running best seeded at `(None, -1e20)`. -/
def QTable.best {σ : Type} [DecidableEq σ] (q : QTable σ) (s : σ) :
    (Option Action × ℚ) × QTable σ :=
  QTable.bestAux s q ALL_ACTIONS (none, BEST_INIT)

/-- Pure view of the `best` scan, over an arbitrary value function. -/
def bestViewAux (f : Action → ℚ) : List Action → Option Action × ℚ → Option Action × ℚ
  | [], acc => acc
  | a :: rest, acc => bestViewAux f rest (if acc.2 < f a then (some a, f a) else acc)

/-- Pure view of `QTable.best`: same result, computed from `read` without
materializing entries. -/
def QTable.bestView {σ : Type} [DecidableEq σ] (q : QTable σ) (s : σ) :
    Option Action × ℚ :=
  bestViewAux (fun a => q.read (s, a)) ALL_ACTIONS (none, BEST_INIT)

/-- `GreedyQ.pick_action(state)`: `self._q.best(state)[0]`, together with
the table as mutated by the scan. -/
def GreedyQ.pick_action {σ : Type} [DecidableEq σ] (q : QTable σ) (s : σ) :
    Option Action × QTable σ :=
  ((q.best s).1.1, (q.best s).2)

/-- `EpsilonPolicy`: pursues policy A, but uses policy B with probability
epsilon.  Policies are modelled by their `pick_action` functions; the
global `random.random()` draw is injected as an explicit `sample`. -/
structure EpsilonPolicy (σ : Type) where
  policy_a : σ → Action
  policy_b : σ → Action
  epsilon : ℚ

/-- `EpsilonPolicy.pick_action(state)` with the uniform sample in [0,1)
passed explicitly: policy B if `sample < epsilon`, else policy A. -/
def EpsilonPolicy.pick_action {σ : Type} (p : EpsilonPolicy σ) (sample : ℚ)
    (s : σ) : Action :=
  if sample < p.epsilon then p.policy_b s else p.policy_a s

/-- `QLearner`: an off-policy learner updating a QTable, with learning
rate alpha and discount rate gamma. -/
structure QLearner (σ : Type) where
  q : QTable σ
  alpha : ℚ
  gamma : ℚ

/-- `QLearner.observe(old_state, action, reward, new_state)`: the one-step
temporal-difference update, in the evaluation order of the source:
`get` (materializes `(old_state, action)`), then `best(new_state)`
(materializes that row), then `set`. -/
def QLearner.observe {σ : Type} [DecidableEq σ] (l : QLearner σ) (old_state : σ)
    (a : Action) (reward : ℚ) (new_state : σ) : QLearner σ :=
  let r1 := l.q.get old_state a
  let prev := r1.1
  let r2 := r1.2.best new_state
  let target := prev + l.alpha * (reward + l.gamma * r2.1.2 - prev)
  { l with q := r2.2.set old_state a target }

/-- Well-formedness of a world for the simulator: the start is in bounds
on a Floor cell. -/
def World.okStart (w : World) : Prop :=
  w.inBoundsP w.init_state ∧ w.terrainAt w.init_state = Terrain.floor

section TableLemmas

variable {σ : Type} [DecidableEq σ]

lemma lookupKey_append_of_some {l1 l2 : List ((σ × Action) × ℚ)} {k : σ × Action}
    {v : ℚ} (h : lookupKey l1 k = some v) : lookupKey (l1 ++ l2) k = some v := by
  induction l1 with
  | nil => exact Option.noConfusion h
  | cons e rest ih =>
    by_cases he : e.1 = k
    · simpa [lookupKey, he] using h
    · simp only [lookupKey, he, if_false, List.cons_append] at h ⊢
      exact ih h

lemma lookupKey_append_of_none {l1 l2 : List ((σ × Action) × ℚ)} {k : σ × Action}
    (h : lookupKey l1 k = none) : lookupKey (l1 ++ l2) k = lookupKey l2 k := by
  induction l1 with
  | nil => rfl
  | cons e rest ih =>
    by_cases he : e.1 = k
    · simp [lookupKey, he] at h
    · simp only [lookupKey, he, if_false, List.cons_append] at h ⊢
      exact ih h

lemma lookupKey_singleton {k k2 : σ × Action} {v : ℚ} :
    lookupKey [(k, v)] k2 = if k = k2 then some v else none := by
  simp [lookupKey]

lemma lookupKey_setKey_self (l : List ((σ × Action) × ℚ)) (k : σ × Action) (v : ℚ) :
    lookupKey (setKey l k v) k = some v := by
  induction l with
  | nil => simp [setKey, lookupKey]
  | cons e rest ih => by_cases he : e.1 = k <;> simp [setKey, lookupKey, he, ih]

lemma lookupKey_setKey_other (l : List ((σ × Action) × ℚ)) {k k2 : σ × Action}
    (v : ℚ) (hk : k ≠ k2) : lookupKey (setKey l k v) k2 = lookupKey l k2 := by
  induction l with
  | nil => simp [setKey, lookupKey, hk]
  | cons e rest ih =>
    by_cases he : e.1 = k
    · simp [setKey, lookupKey, he, hk]
    · by_cases h2 : e.1 = k2 <;> simp [setKey, lookupKey, he, h2, ih, Ne.symm hk]

lemma QTable.get_fst (q : QTable σ) (s : σ) (a : Action) :
    (q.get s a).1 = q.read (s, a) := by
  unfold QTable.get QTable.read
  cases h : lookupKey q.table (s, a) <;> simp [h]

lemma QTable.get_read (q : QTable σ) (s : σ) (a : Action) (k : σ × Action) :
    (q.get s a).2.read k = q.read k := by
  unfold QTable.get
  cases h : lookupKey q.table (s, a) with
  | some v => rfl
  | none =>
    show QTable.read ⟨q.table ++ [((s, a), q.init_reward)], q.init_reward⟩ k = q.read k
    by_cases hk : k = (s, a)
    · subst hk
      simp [QTable.read, lookupKey_append_of_none h, h, lookupKey_singleton]
    · cases h2 : lookupKey q.table k with
      | some w => simp [QTable.read, lookupKey_append_of_some h2, h2]
      | none =>
        simp [QTable.read, lookupKey_append_of_none h2, h2, lookupKey_singleton,
          Ne.symm hk]

lemma QTable.get_init (q : QTable σ) (s : σ) (a : Action) :
    (q.get s a).2.init_reward = q.init_reward := by
  unfold QTable.get
  cases h : lookupKey q.table (s, a) <;> rfl

lemma QTable.set_read (q : QTable σ) (s : σ) (a : Action) (v : ℚ) (k : σ × Action) :
    (q.set s a v).read k = if k = (s, a) then v else q.read k := by
  by_cases hk : k = (s, a)
  · subst hk
    simp [QTable.set, QTable.read, lookupKey_setKey_self]
  · simp [QTable.set, QTable.read, hk,
      lookupKey_setKey_other q.table v (Ne.symm hk)]

lemma QTable.set_init (q : QTable σ) (s : σ) (a : Action) (v : ℚ) :
    (q.set s a v).init_reward = q.init_reward := rfl

lemma bestViewAux_congr {f g : Action → ℚ} (h : ∀ a, f a = g a)
    (as : List Action) (acc : Option Action × ℚ) :
    bestViewAux f as acc = bestViewAux g as acc := by
  induction as generalizing acc with
  | nil => rfl
  | cons a rest ih => simp only [bestViewAux, h a, ih]

lemma QTable.bestAux_spec (s : σ) (as : List Action) (q : QTable σ)
    (acc : Option Action × ℚ) :
    (QTable.bestAux s q as acc).1 = bestViewAux (fun a => q.read (s, a)) as acc
    ∧ (∀ k, (QTable.bestAux s q as acc).2.read k = q.read k)
    ∧ (QTable.bestAux s q as acc).2.init_reward = q.init_reward := by
  induction as generalizing q acc with
  | nil => exact ⟨rfl, fun k => rfl, rfl⟩
  | cons a rest ih =>
    simp only [QTable.bestAux, bestViewAux, QTable.get_fst]
    obtain ⟨ih1, ih2, ih3⟩ := ih (q.get s a).2 (if acc.2 < q.read (s, a)
      then (some a, q.read (s, a)) else acc)
    refine ⟨?_, ?_, ?_⟩
    · rw [ih1]
      exact bestViewAux_congr (fun b => QTable.get_read q s a (s, b)) rest _
    · intro k
      rw [ih2 k, QTable.get_read]
    · rw [ih3, QTable.get_init]

lemma QTable.best_fst (q : QTable σ) (s : σ) : (q.best s).1 = q.bestView s :=
  (QTable.bestAux_spec s ALL_ACTIONS q (none, BEST_INIT)).1

lemma QTable.best_read (q : QTable σ) (s : σ) (k : σ × Action) :
    (q.best s).2.read k = q.read k :=
  (QTable.bestAux_spec s ALL_ACTIONS q (none, BEST_INIT)).2.1 k

lemma QTable.best_init (q : QTable σ) (s : σ) :
    (q.best s).2.init_reward = q.init_reward :=
  (QTable.bestAux_spec s ALL_ACTIONS q (none, BEST_INIT)).2.2

lemma QTable.bestView_congr {q1 q2 : QTable σ} (s : σ)
    (h : ∀ k, q1.read k = q2.read k) : q1.bestView s = q2.bestView s :=
  bestViewAux_congr (fun a => h (s, a)) ALL_ACTIONS (none, BEST_INIT)

lemma bestViewAux_of_le (f : Action → ℚ) (as : List Action)
    (h : ∀ a, a ∈ as → f a ≤ BEST_INIT) :
    bestViewAux f as (none, BEST_INIT) = (none, BEST_INIT) := by
  induction as with
  | nil => rfl
  | cons a rest ih =>
    simp only [bestViewAux]
    rw [if_neg (not_lt.mpr (h a (List.mem_cons_self a rest)))]
    exact ih fun b hb => h b (List.mem_cons_of_mem a hb)

lemma bestView_sentinel (q : QTable σ) (s : σ)
    (h : ∀ a, q.read (s, a) ≤ BEST_INIT) : q.bestView s = (none, BEST_INIT) :=
  bestViewAux_of_le _ ALL_ACTIONS fun a _ => h a

lemma bestView_char (q : QTable σ) (s : σ) (hd : ∀ a, BEST_INIT < q.read (s, a)) :
    ∃ a, q.bestView s = (some a, q.read (s, a))
      ∧ (∀ b, q.read (s, b) ≤ q.read (s, a))
      ∧ (∀ b, q.read (s, b) = q.read (s, a) → actionIndex a ≤ actionIndex b) := by
  have h0 := hd Action.up
  by_cases c1 : q.read (s, Action.up) < q.read (s, Action.down)
  · by_cases c2 : q.read (s, Action.down) < q.read (s, Action.left)
    · by_cases c3 : q.read (s, Action.left) < q.read (s, Action.right)
      · exact ⟨Action.right,
          by simp [QTable.bestView, ALL_ACTIONS, bestViewAux, h0, c1, c2, c3],
          fun b => by cases b <;> linarith,
          fun b hb => by cases b <;> simp [actionIndex] <;> linarith⟩
      · exact ⟨Action.left,
          by simp [QTable.bestView, ALL_ACTIONS, bestViewAux, h0, c1, c2, c3],
          fun b => by cases b <;> linarith,
          fun b hb => by cases b <;> simp [actionIndex] <;> linarith⟩
    · by_cases c3 : q.read (s, Action.down) < q.read (s, Action.right)
      · exact ⟨Action.right,
          by simp [QTable.bestView, ALL_ACTIONS, bestViewAux, h0, c1, c2, c3],
          fun b => by cases b <;> linarith,
          fun b hb => by cases b <;> simp [actionIndex] <;> linarith⟩
      · exact ⟨Action.down,
          by simp [QTable.bestView, ALL_ACTIONS, bestViewAux, h0, c1, c2, c3],
          fun b => by cases b <;> linarith,
          fun b hb => by cases b <;> simp [actionIndex] <;> linarith⟩
  · by_cases c2 : q.read (s, Action.up) < q.read (s, Action.left)
    · by_cases c3 : q.read (s, Action.left) < q.read (s, Action.right)
      · exact ⟨Action.right,
          by simp [QTable.bestView, ALL_ACTIONS, bestViewAux, h0, c1, c2, c3],
          fun b => by cases b <;> linarith,
          fun b hb => by cases b <;> simp [actionIndex] <;> linarith⟩
      · exact ⟨Action.left,
          by simp [QTable.bestView, ALL_ACTIONS, bestViewAux, h0, c1, c2, c3],
          fun b => by cases b <;> linarith,
          fun b hb => by cases b <;> simp [actionIndex] <;> linarith⟩
    · by_cases c3 : q.read (s, Action.up) < q.read (s, Action.right)
      · exact ⟨Action.right,
          by simp [QTable.bestView, ALL_ACTIONS, bestViewAux, h0, c1, c2, c3],
          fun b => by cases b <;> linarith,
          fun b hb => by cases b <;> simp [actionIndex] <;> linarith⟩
      · exact ⟨Action.up,
          by simp [QTable.bestView, ALL_ACTIONS, bestViewAux, h0, c1, c2, c3],
          fun b => by cases b <;> linarith,
          fun b hb => Nat.zero_le _⟩

end TableLemmas

section TableClaims

variable {σ : Type} [DecidableEq σ]

/-- C8: `QTable.get(state, action)` returns the stored value if one was set
and the configured default otherwise, and logically leaves the mapping
unchanged: every subsequent `read`, `get` and `best` result (and the
default itself) is as if the read had not happened.  In the embedding
`get` is a total function, so it never fails. -/
theorem C8_get_frame (q : QTable σ) (s : σ) (a : Action) :
    (∀ v, lookupKey q.table (s, a) = some v → (q.get s a).1 = v)
    ∧ (lookupKey q.table (s, a) = none → (q.get s a).1 = q.init_reward)
    ∧ (∀ k, (q.get s a).2.read k = q.read k)
    ∧ ((q.get s a).2.init_reward = q.init_reward)
    ∧ (∀ t b, ((q.get s a).2.get t b).1 = (q.get t b).1)
    ∧ (∀ t, ((q.get s a).2.best t).1 = (q.best t).1) := by
  refine ⟨?_, ?_, QTable.get_read q s a, QTable.get_init q s a, ?_, ?_⟩
  · intro v hv
    rw [QTable.get_fst, QTable.read, hv]
    rfl
  · intro hv
    rw [QTable.get_fst, QTable.read, hv]
    rfl
  · intro t b
    rw [QTable.get_fst, QTable.get_fst, QTable.get_read]
  · intro t
    rw [QTable.best_fst, QTable.best_fst]
    exact QTable.bestView_congr t (QTable.get_read q s a)

/-- C8 witness: on the concrete empty table with default 5, `get` returns
the default, and reading another key afterwards is unaffected. -/
theorem C8_get_frame_witness :
    ((⟨[], 5⟩ : QTable Nat).get 0 Action.up).1 = 5
    ∧ (((⟨[], 5⟩ : QTable Nat).get 0 Action.up).2.read (1, Action.down) = 5) := by
  have h := C8_get_frame (⟨[], 5⟩ : QTable Nat) 0 Action.up
  exact ⟨h.2.1 rfl, (h.2.2.1 (1, Action.down)).trans rfl⟩

/-- C2: `QLearner.observe(old_state, action, reward, new_state)` sets the
table entry at (old_state, action) to
`prev + alpha * (reward + gamma * best(new_state).value - prev)` where
`prev` is the previous value of that entry, and changes the value of no
other entry. -/
theorem C2_observe_spec (l : QLearner σ) (s0 s1 : σ) (a : Action) (r : ℚ) :
    ((l.observe s0 a r s1).q.read (s0, a)
      = l.q.read (s0, a)
        + l.alpha * (r + l.gamma * (l.q.bestView s1).2 - l.q.read (s0, a)))
    ∧ (∀ k, k ≠ (s0, a) → (l.observe s0 a r s1).q.read k = l.q.read k) := by
  unfold QLearner.observe
  constructor
  · rw [QTable.set_read, if_pos rfl, QTable.get_fst, QTable.best_fst,
      QTable.bestView_congr s1 (QTable.get_read l.q s0 a)]
  · intro k hk
    rw [QTable.set_read, if_neg hk, QTable.best_read, QTable.get_read]

/-- C2 witness: with alpha = 1/2, gamma = 1, default 0 and an empty table,
one `observe(s0, a, -1, s1)` leaves -1/2 at (s0, a) (here
`best(s1).value = 0`) and 0 everywhere else. -/
theorem C2_observe_spec_witness :
    (((⟨⟨[], 0⟩, 1 / 2, 1⟩ : QLearner Nat).observe 0 Action.up (-1) 1).q.read
        (0, Action.up) = -(1 / 2))
    ∧ (((⟨⟨[], 0⟩, 1 / 2, 1⟩ : QLearner Nat).observe 0 Action.up (-1) 1).q.read
        (1, Action.up) = 0) := by
  have h := C2_observe_spec (⟨⟨[], 0⟩, 1 / 2, 1⟩ : QLearner Nat) 0 1 Action.up (-1)
  constructor
  · rw [h.1]
    norm_num [QTable.read, lookupKey, QTable.bestView, ALL_ACTIONS, bestViewAux,
      BEST_INIT]
  · rw [h.2 (1, Action.up) (by simp)]
    rfl

omit [DecidableEq σ] in
/-- C7: an `EpsilonPolicy` with epsilon = 0 always delegates to policy A,
and with epsilon = 1 always delegates to policy B, for every state and
every value of the uniform sample in [0, 1). -/
theorem C7_epsilon_extremes (pa pb : σ → Action) (sample : ℚ) (s : σ)
    (h0 : 0 ≤ sample) (h1 : sample < 1) :
    (EpsilonPolicy.mk pa pb 0).pick_action sample s = pa s
    ∧ (EpsilonPolicy.mk pa pb 1).pick_action sample s = pb s := by
  unfold EpsilonPolicy.pick_action
  constructor
  · exact if_neg (not_lt.mpr h0)
  · exact if_pos h1

/-- C7 witness: concrete policies and the concrete sample 1/2. -/
theorem C7_epsilon_extremes_witness :
    (EpsilonPolicy.mk (fun _ : Nat => Action.up) (fun _ => Action.down)
        0).pick_action (1 / 2) 7 = Action.up
    ∧ (EpsilonPolicy.mk (fun _ : Nat => Action.up) (fun _ => Action.down)
        1).pick_action (1 / 2) 7 = Action.down := by
  exact C7_epsilon_extremes (fun _ => Action.up) (fun _ => Action.down) (1 / 2) 7
    (by norm_num) (by norm_num)

/-- C6 counterexample: with the configured default exactly the sentinel
-1e20 and no stored entries, `QTable.best` returns no action at all
rather than the first action with the default value. -/
theorem C6_counterexample :
    ((⟨[], BEST_INIT⟩ : QTable Nat).best 0).1 = (none, BEST_INIT)
    ∧ ((⟨[], BEST_INIT⟩ : QTable Nat).best 0).1 ≠ (some Action.up, BEST_INIT) := by
  constructor
  · decide
  · decide

/-- C6 amended: provided every value of the state's row exceeds the -1e20
sentinel (in particular whenever the configured default does), `QTable.best`
returns the first action in the fixed enumeration order among those
reaching the maximum value, together with that value; on a state with no
stored entries this is the first action `up` with the default value. -/
theorem C6_best_default (q : QTable σ) (s : σ)
    (hd : ∀ a, BEST_INIT < q.read (s, a)) :
    ∃ a, (q.best s).1 = (some a, q.read (s, a))
      ∧ (∀ b, q.read (s, b) ≤ q.read (s, a))
      ∧ (∀ b, q.read (s, b) = q.read (s, a) → actionIndex a ≤ actionIndex b)
      ∧ ((∀ b, lookupKey q.table (s, b) = none) →
          a = Action.up ∧ q.read (s, a) = q.init_reward) := by
  obtain ⟨a, heq, hmax, hfirst⟩ := bestView_char q s hd
  refine ⟨a, by rw [QTable.best_fst]; exact heq, hmax, hfirst, ?_⟩
  intro hnone
  have hread : ∀ b, q.read (s, b) = q.init_reward := fun b => by
    rw [QTable.read, hnone b]
    rfl
  have hup := hfirst Action.up (by rw [hread, hread])
  have ha : a = Action.up := by
    cases a
    · rfl
    · simp [actionIndex] at hup
    · simp [actionIndex] at hup
    · simp [actionIndex] at hup
  exact ⟨ha, hread a⟩

/-- C6 witness: the empty table with default 0 and an arbitrary state. -/
theorem C6_best_default_witness :
    ∃ a, ((⟨[], 0⟩ : QTable Nat).best 3).1 = (some a, (⟨[], 0⟩ : QTable Nat).read (3, a))
      ∧ a = Action.up := by
  obtain ⟨a, heq, -, -, hlast⟩ :=
    C6_best_default (⟨[], 0⟩ : QTable Nat) 3
      (fun a => by norm_num [QTable.read, lookupKey, BEST_INIT])
  exact ⟨a, heq, (hlast fun b => rfl).1⟩

/-- C10: if every value of a state's row is at most the sentinel -1e20,
`QTable.best` returns `(None, -1e20)` and `GreedyQ.pick_action` returns
`None`; if instead every value of the row exceeds -1e20, `best` returns
one of the four actions. -/
theorem C10_best_sentinel (q : QTable σ) (s : σ) :
    ((∀ a, q.read (s, a) ≤ BEST_INIT) →
      (q.best s).1 = (none, BEST_INIT) ∧ (GreedyQ.pick_action q s).1 = none)
    ∧ ((∀ a, BEST_INIT < q.read (s, a)) →
      ∃ a, (q.best s).1.1 = some a ∧ a ∈ ALL_ACTIONS) := by
  constructor
  · intro h
    have hb : (q.best s).1 = (none, BEST_INIT) := by
      rw [QTable.best_fst]
      exact bestView_sentinel q s h
    refine ⟨hb, ?_⟩
    show (q.best s).1.1 = none
    rw [hb]
  · intro h
    obtain ⟨a, heq, -, -⟩ := bestView_char q s h
    refine ⟨a, ?_, by cases a <;> simp [ALL_ACTIONS]⟩
    rw [QTable.best_fst, heq]

/-- C10 witness: the empty table whose default is the sentinel itself
realizes the first alternative; the empty table with default 0 realizes
the second. -/
theorem C10_best_sentinel_witness :
    ((⟨[], BEST_INIT⟩ : QTable Nat).best 0).1 = (none, BEST_INIT)
    ∧ (GreedyQ.pick_action (⟨[], BEST_INIT⟩ : QTable Nat) 0).1 = none
    ∧ ∃ a, ((⟨[], 0⟩ : QTable Nat).best 0).1.1 = some a := by
  have h1 := (C10_best_sentinel (⟨[], BEST_INIT⟩ : QTable Nat) 0).1
    (fun a => by norm_num [QTable.read, lookupKey])
  have h2 := (C10_best_sentinel (⟨[], 0⟩ : QTable Nat) 0).2
    (fun a => by norm_num [QTable.read, lookupKey, BEST_INIT])
  obtain ⟨a, ha, -⟩ := h2
  exact ⟨h1.1, h1.2, a, ha⟩

end TableClaims

section SimLemmas

lemma classify_eq_trap {c : Char} : classify c = Terrain.trap ↔ c = '^' := by
  constructor
  · intro h
    unfold classify at h
    split_ifs at h
    · assumption
  · intro h
    subst h
    decide

lemma classify_eq_goal {c : Char} : classify c = Terrain.goal ↔ c = '$' := by
  constructor
  · intro h
    unfold classify at h
    split_ifs at h
    · assumption
  · intro h
    subst h
    decide

lemma classify_ne_wall {c : Char} (h : c ∈ ['.', '^', '$']) :
    classify c ≠ Terrain.wall := by
  simp only [List.mem_cons, List.not_mem_nil, or_false] at h
  rcases h with h | h | h <;> subst h <;> decide

lemma valid_move_iff (sim : Simulation) (p : Int × Int) :
    sim.valid_move p = true ↔
      sim.world.inBoundsP p ∧ sim.world.charAt p ∈ ['.', '^', '$'] := by
  unfold Simulation.valid_move World.inBoundsP
  simp [and_assoc]

lemma act_eq (sim : Simulation) (a : Action) :
    sim.act a =
      if sim.valid_move (sim.candidate a) then
        ((if sim.world.charAt (sim.candidate a) = '^' then (-1000 : Int) else -1),
          ⟨sim.world, sim.candidate a, sim.score +
            (if sim.world.charAt (sim.candidate a) = '^' then (-1000 : Int) else -1)⟩)
      else (-1, ⟨sim.world, sim.state, sim.score + (-1)⟩) := rfl

lemma act_world (sim : Simulation) (a : Action) : (sim.act a).2.world = sim.world := by
  rw [act_eq]
  by_cases hv : sim.valid_move (sim.candidate a)
  · rw [if_pos hv]
  · rw [if_neg hv]

lemma Reachable.world_eq {w : World} {sim : Simulation} (h : Reachable w sim) :
    sim.world = w := by
  induction h with
  | init => rfl
  | step sim a _ ih => rw [act_world, ih]
  | restart sim _ ih => exact ih

lemma scanChars_ok {cs : List Char} {x0 y : Nat} {init r : Option (Nat × Nat)}
    (h : scanChars cs x0 y init = Except.ok r) :
    r = init ∨ (init = none ∧ ∃ i, i < cs.length ∧ r = some (x0 + i, y)) := by
  induction cs generalizing x0 init with
  | nil => exact Or.inl (Except.ok.inj h).symm
  | cons c rest ih =>
    unfold scanChars at h
    by_cases hval : c ∉ VALID_CHARS
    · rw [if_pos hval] at h
      exact Except.noConfusion h
    · rw [if_neg hval] at h
      by_cases hat : c = '@'
      · rw [if_pos hat] at h
        cases init with
        | some first => exact Except.noConfusion h
        | none =>
          rcases ih h with h1 | h2
          · right
            exact ⟨rfl, 0, by simp, by rw [h1, Nat.add_zero]⟩
          · exact absurd h2.1 (by simp)
      · rw [if_neg hat] at h
        rcases ih h with h1 | ⟨hi, i, hlen, hr⟩
        · exact Or.inl h1
        · right
          refine ⟨hi, i + 1, ?_, ?_⟩
          · simp only [List.length_cons]
            omega
          · rw [hr]
            have harith : x0 + 1 + i = x0 + (i + 1) := by omega
            rw [harith]

lemma scanLines_ok {ls : List (List Char)} {y0 len0 : Nat} {init r : Option (Nat × Nat)}
    (h : scanLines ls y0 len0 init = Except.ok r) :
    (∀ j, j < ls.length → 0 < y0 + j → (ls.getD j []).length = len0)
    ∧ (r = init ∨ ∃ px py, r = some (px, py) ∧ ∃ j, j < ls.length
        ∧ py = y0 + j ∧ px < (ls.getD j []).length) := by
  induction ls generalizing y0 init with
  | nil =>
    refine ⟨fun j hj _ => absurd hj (by simp), Or.inl (Except.ok.inj h).symm⟩
  | cons line rest ih =>
    unfold scanLines at h
    by_cases hlen : y0 > 0 ∧ line.length ≠ len0
    · rw [if_pos hlen] at h
      exact Except.noConfusion h
    · rw [if_neg hlen] at h
      cases hsc : scanChars line 0 y0 init with
      | error e =>
        rw [hsc] at h
        exact Except.noConfusion h
      | ok init2 =>
        rw [hsc] at h
        obtain ⟨ih1, ih2⟩ := ih h
        constructor
        · intro j hj hpos
          cases j with
          | zero =>
            simp only [Nat.add_zero] at hpos
            rw [List.getD_cons_zero]
            by_contra hne
            exact hlen ⟨hpos, hne⟩
          | succ j2 =>
            rw [List.getD_cons_succ]
            exact ih1 j2 (by simpa using hj) (by omega)
        · rcases ih2 with h1 | ⟨px, py, hr, j, hj, hpy, hpx⟩
          · rcases scanChars_ok hsc with h2 | ⟨hin, i, hlen2, h2⟩
            · exact Or.inl (h1.trans h2)
            · right
              refine ⟨i, y0, by rw [h1, h2, Nat.zero_add], 0, by simp, by simp, ?_⟩
              rw [List.getD_cons_zero]
              exact hlen2
          · right
            refine ⟨px, py, hr, j + 1, ?_, by omega, ?_⟩
            · simp only [List.length_cons]
              omega
            · rw [List.getD_cons_succ]
              exact hpx

lemma setChar_length {l : List Char} {x : Nat} (h : x < l.length) :
    (setChar l x).length = l.length := by
  unfold setChar
  simp only [List.length_append, List.length_take, List.length_cons,
    List.length_drop, List.length_nil]
  omega

lemma setChar_getD {l : List Char} {x : Nat} (h : x < l.length) (d : Char) :
    (setChar l x).getD x d = '.' := by
  unfold setChar
  have htake : (l.take x).length = x := by
    rw [List.length_take]
    omega
  rw [List.append_assoc, List.getD_append_right _ _ _ _ (le_of_eq htake), htake]
  simp

lemma getD_set_self {α : Type} (l : List α) (n : Nat) (v : α) (d : α)
    (h : n < l.length) : (l.set n v).getD n d = v := by
  simp [List.getD_eq_getElem?_getD, List.getElem?_set_self, h]

lemma headD_set_of_pos {α : Type} (l : List α) (n : Nat) (v d : α) (h : 0 < n) :
    (l.set n v).headD d = l.headD d := by
  cases l with
  | nil => rfl
  | cons a t =>
    cases n with
    | zero => omega
    | succ m => rfl

lemma parse_ok_start {s : List Char} {w : World} (h : World.parse s = Except.ok w) :
    w.inBoundsP w.init_state ∧ w.charAt w.init_state = '.' := by
  unfold World.parse at h
  by_cases hemp : (pySplit s).isEmpty
  · rw [if_pos hemp] at h
    exact Except.noConfusion h
  · rw [if_neg hemp] at h
    cases hsc : scanLines (pySplit s) 0 ((pySplit s).headD []).length none with
    | error e =>
      rw [hsc] at h
      exact Except.noConfusion h
    | ok oinit =>
      rw [hsc] at h
      cases oinit with
      | none => exact Except.noConfusion h
      | some p =>
        obtain ⟨x, y⟩ := p
        have hw := (Except.ok.inj h).symm
        obtain ⟨hlen, hinit⟩ := scanLines_ok hsc
        rcases hinit with h1 | ⟨px, py, hr, j, hj, hpy, hpx⟩
        · exact absurd h1 (by simp)
        · rw [Option.some_inj, Prod.mk.injEq] at hr
          obtain ⟨hx, hy⟩ := hr
          subst hx
          subst hy
          have hnil : pySplit s ≠ [] := by
            intro hn
            rw [hn] at hemp
            exact hemp rfl
          have hj2 : y < (pySplit s).length := by omega
          have hpx2 : x < ((pySplit s).getD y []).length := by
            have hyj : y = j := by omega
            rw [hyj]
            exact hpx
          obtain ⟨l0, t, hLs⟩ : ∃ l0 t, pySplit s = l0 :: t := by
            cases hc : pySplit s with
            | nil => exact absurd hc hnil
            | cons a b => exact ⟨a, b, rfl⟩
          have hww :
              ((((pySplit s).set y (setChar ((pySplit s).getD y []) x)).headD
                []).length)
              = ((pySplit s).getD y []).length := by
            cases y with
            | zero =>
              have hx0 : x < l0.length := by
                have h2 := hpx2
                rw [hLs, List.getD_cons_zero] at h2
                exact h2
              rw [hLs, List.getD_cons_zero]
              show ((setChar l0 x :: t).headD []).length = l0.length
              rw [List.headD_cons]
              exact setChar_length hx0
            | succ m =>
              rw [headD_set_of_pos _ _ _ _ (Nat.succ_pos m)]
              have h0 := hlen (m + 1) hj2 (by omega)
              exact h0.symm
          subst hw
          constructor
          · unfold World.inBoundsP World.w World.h
            dsimp only
            refine ⟨?_, ?_, ?_, ?_⟩
            · exact Int.ofNat_nonneg x
            · show (Int.ofNat x) < _
              have hlt : x < ((((pySplit s).set y
                  (setChar ((pySplit s).getD y []) x)).headD []).length) := by
                rw [hww]
                exact hpx2
              rw [Int.ofNat_eq_natCast]
              omega
            · exact Int.ofNat_nonneg y
            · show (Int.ofNat y) < _
              have hlt : y < (((pySplit s).set y
                  (setChar ((pySplit s).getD y []) x)).length) := by
                rw [List.length_set]
                exact hj2
              rw [Int.ofNat_eq_natCast]
              omega
          · unfold World.charAt
            show ((((pySplit s).set y (setChar ((pySplit s).getD y []) x)).getD
                (Int.ofNat y).toNat []).getD (Int.ofNat x).toNat '#') = '.'
            have hty : (Int.ofNat y).toNat = y := Int.toNat_ofNat y
            have htx : (Int.ofNat x).toNat = x := Int.toNat_ofNat x
            rw [hty, htx, getD_set_self _ _ _ _ hj2, setChar_getD hpx2]

lemma classify_passable {c : Char} (h : c ∈ ['.', '^', '$']) :
    classify c ∈ [Terrain.floor, Terrain.trap, Terrain.goal] := by
  simp only [List.mem_cons, List.not_mem_nil, or_false] at h ⊢
  rcases h with h | h | h <;> subst h <;> decide

end SimLemmas

section SimClaims

/-- C1: from an in-bounds position, `act` returns reward -1, except -1000
exactly when the candidate cell (current position plus the action's unit
vector) is in bounds with Trap terrain; the position updates to the
candidate exactly when the move is valid (candidate in bounds with Floor,
Trap or Goal terrain; a Wall or out-of-bounds candidate leaves the
position unchanged); and the score always increases by the returned
reward. -/
theorem C1_act_spec (sim : Simulation) (a : Action)
    (_hpos : sim.world.inBoundsP sim.state) :
    ((sim.act a).1 =
      if sim.world.inBoundsP (sim.candidate a)
          ∧ sim.world.terrainAt (sim.candidate a) = Terrain.trap
        then (-1000 : Int) else -1)
    ∧ ((sim.act a).2.state =
        if sim.valid_move (sim.candidate a) then sim.candidate a else sim.state)
    ∧ ((sim.act a).2.score = sim.score + (sim.act a).1) := by
  rw [act_eq]
  by_cases hv : sim.valid_move (sim.candidate a)
  · simp only [if_pos hv]
    by_cases ht : sim.world.charAt (sim.candidate a) = '^'
    · have hcond : sim.world.inBoundsP (sim.candidate a)
          ∧ sim.world.terrainAt (sim.candidate a) = Terrain.trap :=
        ⟨((valid_move_iff sim _).mp hv).1, by
          unfold World.terrainAt
          rw [ht]
          decide⟩
      simp only [if_pos ht, if_pos hcond]
      refine ⟨?_, ?_, ?_⟩ <;> trivial
    · have hcond : ¬(sim.world.inBoundsP (sim.candidate a)
          ∧ sim.world.terrainAt (sim.candidate a) = Terrain.trap) := by
        intro hc
        exact ht (classify_eq_trap.mp hc.2)
      simp only [if_neg ht, if_neg hcond]
      refine ⟨?_, ?_, ?_⟩ <;> trivial
  · have hcond : ¬(sim.world.inBoundsP (sim.candidate a)
        ∧ sim.world.terrainAt (sim.candidate a) = Terrain.trap) := by
      intro hc
      apply hv
      rw [valid_move_iff]
      have hch : sim.world.charAt (sim.candidate a) = '^' :=
        classify_eq_trap.mp hc.2
      refine ⟨hc.1, ?_⟩
      rw [hch]
      decide
    simp only [if_neg hv, if_neg hcond]
    refine ⟨?_, ?_, ?_⟩ <;> trivial

/-- C1 witness: in the 1 by 2 world from "@.", moving right from the
in-bounds start yields reward -1 and the position (1, 0). -/
theorem C1_act_spec_witness :
    ((Simulation.mkSim ⟨(0, 0), [['.', '.']]⟩).act Action.right).1 = -1
    ∧ ((Simulation.mkSim ⟨(0, 0), [['.', '.']]⟩).act Action.right).2.state = (1, 0) := by
  have h := C1_act_spec (Simulation.mkSim ⟨(0, 0), [['.', '.']]⟩) Action.right
    (by decide)
  refine ⟨?_, ?_⟩
  · rw [h.1]
    decide
  · rw [h.2.1]
    decide

/-- C9: in a well-formed world (start in bounds on a Floor cell) every
reachable simulation state has the agent in bounds on a non-Wall cell;
`reset` restores the start position, and `act` either leaves the position
unchanged or moves it to an in-bounds Floor, Trap or Goal cell. -/
theorem C9_position_invariant (w : World) (hw : w.okStart)
    (sim : Simulation) (hr : Reachable w sim) :
    (w.inBoundsP sim.state ∧ w.terrainAt sim.state ≠ Terrain.wall)
    ∧ sim.reset.state = w.init_state
    ∧ (∀ a, (sim.act a).2.state = sim.state
        ∨ (w.inBoundsP ((sim.act a).2.state)
          ∧ w.terrainAt ((sim.act a).2.state) ∈
              [Terrain.floor, Terrain.trap, Terrain.goal])) := by
  have hinv : w.inBoundsP sim.state ∧ w.terrainAt sim.state ≠ Terrain.wall := by
    induction hr with
    | init =>
      refine ⟨hw.1, ?_⟩
      show w.terrainAt w.init_state ≠ Terrain.wall
      rw [hw.2]
      decide
    | step sim2 a hr2 ih =>
      have hwd2 := Reachable.world_eq hr2
      rw [act_eq]
      by_cases hv : sim2.valid_move (sim2.candidate a)
      · rw [if_pos hv]
        obtain ⟨hb, hc⟩ := (valid_move_iff sim2 _).mp hv
        rw [hwd2] at hb hc
        by_cases ht : sim2.world.charAt (sim2.candidate a) = '^'
        · rw [if_pos ht]
          exact ⟨hb, classify_ne_wall hc⟩
        · rw [if_neg ht]
          exact ⟨hb, classify_ne_wall hc⟩
      · rw [if_neg hv]
        exact ih
    | restart sim2 hr2 ih =>
      have hwd2 := Reachable.world_eq hr2
      constructor
      · show w.inBoundsP sim2.world.init_state
        rw [hwd2]
        exact hw.1
      · show w.terrainAt sim2.world.init_state ≠ Terrain.wall
        rw [hwd2, hw.2]
        decide
  refine ⟨hinv, ?_, ?_⟩
  · show sim.world.init_state = w.init_state
    rw [Reachable.world_eq hr]
  · intro a
    rw [act_eq]
    by_cases hv : sim.valid_move (sim.candidate a)
    · right
      rw [if_pos hv]
      obtain ⟨hb, hc⟩ := (valid_move_iff sim _).mp hv
      rw [Reachable.world_eq hr] at hb hc
      by_cases ht : sim.world.charAt (sim.candidate a) = '^'
      · rw [if_pos ht]
        exact ⟨hb, classify_passable hc⟩
      · rw [if_neg ht]
        exact ⟨hb, classify_passable hc⟩
    · left
      rw [if_neg hv]

/-- C9 witness: the world from "@^" is well formed and the invariant holds
at the initial state; reset restores (0, 0). -/
theorem C9_position_invariant_witness :
    World.inBoundsP ⟨(0, 0), [['.', '^']]⟩
      (Simulation.mkSim ⟨(0, 0), [['.', '^']]⟩).state
    ∧ (Simulation.mkSim ⟨(0, 0), [['.', '^']]⟩).reset.state = (0, 0) := by
  have h := C9_position_invariant ⟨(0, 0), [['.', '^']]⟩ ⟨by decide, by decide⟩
    (Simulation.mkSim ⟨(0, 0), [['.', '^']]⟩) Reachable.init
  exact ⟨h.1.1, h.2.1⟩

/-- C3: in every reachable state of a simulation over a parsed world,
`in_terminal_state` holds exactly when the terrain at the current position
is Trap or Goal; and immediately after `reset()` it is false, because the
start cell was reclassified as Floor during parsing. -/
theorem C3_terminal_iff (s : List Char) (w : World)
    (hw : World.parse s = Except.ok w) (sim : Simulation)
    (hr : Reachable w sim) :
    (sim.in_terminal_state = true ↔
      (sim.world.terrainAt sim.state = Terrain.trap
        ∨ sim.world.terrainAt sim.state = Terrain.goal))
    ∧ sim.reset.in_terminal_state = false := by
  constructor
  · unfold Simulation.in_terminal_state World.terrainAt
    simp only [decide_eq_true_eq, List.mem_cons, List.not_mem_nil, or_false]
    constructor
    · intro h
      rcases h with h | h
      · exact Or.inl (by rw [h]; decide)
      · exact Or.inr (by rw [h]; decide)
    · intro h
      rcases h with h | h
      · exact Or.inl (classify_eq_trap.mp h)
      · exact Or.inr (classify_eq_goal.mp h)
  · have hworld := Reachable.world_eq hr
    have hstart := parse_ok_start hw
    show Simulation.in_terminal_state ⟨sim.world, sim.world.init_state, 0⟩ = false
    unfold Simulation.in_terminal_state
    rw [hworld]
    show decide (w.charAt w.init_state ∈ ['^', '$']) = false
    rw [hstart.2]
    decide

/-- C3 witness: for the world parsed from "@^", reset lands on the
reclassified Floor start, so the terminal predicate is false. -/
theorem C3_terminal_iff_witness :
    (Simulation.mkSim ⟨(0, 0), [['.', '^']]⟩).reset.in_terminal_state = false := by
  have h := C3_terminal_iff "@^".toList ⟨(0, 0), [['.', '^']]⟩ (by decide)
    (Simulation.mkSim ⟨(0, 0), [['.', '^']]⟩) Reachable.init
  exact h.2

/-- C4 counterexample: in the world parsed from "@^." the agent that
entered the trap at (1, 0) is in a terminal state, yet `act(Right)` there
moves the position to (2, 0) instead of recomputing the same terminal
state. -/
theorem C4_counterexample :
    World.parse "@^.".toList = Except.ok ⟨(0, 0), [['.', '^', '.']]⟩
    ∧ ((Simulation.mkSim ⟨(0, 0), [['.', '^', '.']]⟩).act
        Action.right).2.in_terminal_state = true
    ∧ ((((Simulation.mkSim ⟨(0, 0), [['.', '^', '.']]⟩).act Action.right).2.act
          Action.right).2.state
        ≠ (((Simulation.mkSim ⟨(0, 0), [['.', '^', '.']]⟩).act
          Action.right).2.state)) := by
  refine ⟨by decide, by decide, by decide⟩

/-- C4 amended: calling `act` while in a terminal state performs an
ordinary step like any other: the position moves to the candidate cell
exactly when that cell is in bounds with Floor, Trap or Goal terrain (so
the agent can leave the terminal cell), and stays in place only when that
move is invalid. -/
theorem C4_act_in_terminal (sim : Simulation) (a : Action)
    (_h : sim.in_terminal_state = true) :
    (sim.act a).2.state =
      if sim.valid_move (sim.candidate a) then sim.candidate a else sim.state := by
  rw [act_eq]
  by_cases hv : sim.valid_move (sim.candidate a)
  · simp only [if_pos hv]
  · simp only [if_neg hv]

/-- C4 witness: the trap state of the "@^." world, acting right. -/
theorem C4_act_in_terminal_witness :
    ((Simulation.mkSim ⟨(0, 0), [['.', '^', '.']]⟩).act
      Action.right).2.in_terminal_state = true
    ∧ ((((Simulation.mkSim ⟨(0, 0), [['.', '^', '.']]⟩).act Action.right).2.act
        Action.right).2.state = (2, 0)) := by
  have h := C4_act_in_terminal
    ((Simulation.mkSim ⟨(0, 0), [['.', '^', '.']]⟩).act Action.right).2
    Action.right (by decide)
  refine ⟨by decide, ?_⟩
  rw [h]
  decide

/-- C5: the parser splits its input with Python str.split(), which splits
on every whitespace run, so the documented Blank map cell can never reach
the per-character validation: on the text "@ ..\n. .." whose two lines
have equal length 4, use only documented symbols, and contain exactly one
start, `World.parse` raises the line-length failure instead of
succeeding. -/
theorem C5_blank_line_bug :
    ("@ ..\n. ..".toList
      = ['@', ' ', '.', '.'] ++ ['\n'] ++ ['.', ' ', '.', '.'])
    ∧ (∀ line ∈ [['@', ' ', '.', '.'], ['.', ' ', '.', '.']], line.length = 4)
    ∧ (∀ line ∈ [['@', ' ', '.', '.'], ['.', ' ', '.', '.']],
        ∀ c ∈ line, c ∈ VALID_CHARS)
    ∧ ((['@', ' ', '.', '.'] ++ ['.', ' ', '.', '.']).count '@' = 1)
    ∧ World.parse "@ ..\n. ..".toList
        = Except.error (WorldFailure.lineLength 1 2 1) := by
  refine ⟨by decide, by decide, by decide, by decide, by decide⟩

end SimClaims

end Gridworld
